import Mathlib

/-!
# RC5 (32-bit word, 12 rounds, 16-byte key) — verification of the spec against the source

Shallow embedding of `src/lib.rs` (functions `key_table`, `encode`, `decode`)
and `src/util.rs` (`platform_add`, `platform_sub`, `collect_rev`).
Machine words (`u32`) are embedded as `Nat` kept below `2 ^ 32`; wrapping
arithmetic is explicit `% w32`.
-/

namespace RC5

/-- `2 ^ 32`, the modulus of `u32` arithmetic. -/
def w32 : Nat := 4294967296

/-- Magic constant `P` from `lib.rs`. -/
def P : Nat := 0xb7e15163

/-- Magic constant `Q` from `lib.rs`. -/
def Q : Nat := 0x9e3779b9

/-- `ROUNDS` from `lib.rs`. -/
def ROUNDS : Nat := 12

/-- `KEY_BYTES` from `lib.rs`. -/
def KEY_BYTES : Nat := 16

/-- `KEY_TABLE_WORDS = 2 * (ROUNDS + 1)` from `lib.rs`. -/
def KEY_TABLE_WORDS : Nat := 2 * (ROUNDS + 1)

/-- `KEY_WORDS` from `lib.rs`. -/
def KEY_WORDS : Nat := 4

/-- `u32::platform_add` from `util.rs`: wrapping addition (`overflowing_add`). -/
def wadd (a b : Nat) : Nat := (a + b) % w32

/-- `u32::platform_sub` from `util.rs`: wrapping subtraction (`overflowing_sub`). -/
def wsub (a b : Nat) : Nat := (a + (w32 - b % w32)) % w32

/-- `u32::rotate_left`: the rotation amount is taken mod 32, the input mod `2 ^ 32`. -/
def rotl (x n : Nat) : Nat :=
  (x % w32 % 2 ^ (32 - n % 32)) * 2 ^ (n % 32) + x % w32 / 2 ^ (32 - n % 32)

/-- `u32::rotate_right`: the rotation amount is taken mod 32, the input mod `2 ^ 32`. -/
def rotr (x n : Nat) : Nat :=
  (x % w32 % 2 ^ (n % 32)) * 2 ^ (32 - n % 32) + x % w32 / 2 ^ (n % 32)

/-- Step 1 of `key_table` in `lib.rs`: scan the key bytes in reverse
(`key.iter().rev()`), fold each group of 4 consecutive bytes of that reverse
scan with `(v << 8) + byte` (the shift truncates to `u32`), and reverse the
word sequence at the end (`collect_rev` from `util.rs`). -/
def keyWordsOfBytes (key : List Nat) : List Nat :=
  ((List.range KEY_WORDS).map (fun j =>
    (List.range 4).foldl
      (fun v l => (v <<< 8) % w32 + key.reverse.getD (4 * j + l) 0) 0)).reverse

/-- Step 2 of `key_table` in `lib.rs`: the `scan` producing
`P, P + Q, P + 2Q, ...` (wrapping) over `0..KEY_TABLE_WORDS`. -/
def initKeyTable : List Nat :=
  ((List.range KEY_TABLE_WORDS).foldl
    (fun (acc : List Nat × Nat) i =>
      let v := if i = 0 then P else wadd acc.2 Q
      (acc.1 ++ [v], v)) ([], 0)).1

/-- One iteration of the step-3 mixing loop of `key_table` in `lib.rs`.
State: (key table, key words, `key_table_val` A, `key_words_val` B);
`i` is the loop iteration count, so the two cycling index iterators yield
`i % 26` and `i % 4`. -/
def mixStep (st : List Nat × List Nat × Nat × Nat) (i : Nat) :
    List Nat × List Nat × Nat × Nat :=
  let t := i % KEY_TABLE_WORDS
  let a2 := rotl (wadd (wadd (st.1.getD t 0) st.2.2.1) st.2.2.2) 3
  let tbl2 := st.1.set t a2
  let w := i % KEY_WORDS
  let b2 := rotl (wadd (wadd (st.2.1.getD w 0) a2) st.2.2.2) (wadd a2 st.2.2.2)
  let wds2 := st.2.1.set w b2
  (tbl2, wds2, a2, b2)

/-- `key_table` from `lib.rs` (the value computed on a well-formed 16-byte
key; the length assertion is modelled separately by `key_tableChecked`). -/
def key_table (key : List Nat) : List Nat :=
  ((List.range (3 * KEY_TABLE_WORDS)).foldl mixStep
    (initKeyTable, keyWordsOfBytes key, 0, 0)).1

/-- One round of `encode` in `lib.rs` (the body of the fold over `1..=12`). -/
def encRound (kt : List Nat) (ab : Nat × Nat) (i : Nat) : Nat × Nat :=
  let a := wadd (rotl (ab.1 ^^^ ab.2) ab.2) (kt.getD (2 * i) 0)
  let b := wadd (rotl (ab.2 ^^^ a) a) (kt.getD (2 * i + 1) 0)
  (a, b)

/-- `encode` from `lib.rs` (the value computed on well-formed inputs;
the length assertions are modelled separately by `encodeChecked`). -/
def encode (kt pt : List Nat) : List Nat :=
  let ab := (List.range' 1 ROUNDS).foldl (encRound kt)
    (wadd (pt.getD 0 0) (kt.getD 0 0), wadd (pt.getD 1 0) (kt.getD 1 0))
  [ab.1, ab.2]

/-- One round of `decode` in `lib.rs` (the body of the fold over
`(1..=12).rev()`). -/
def decRound (kt : List Nat) (ab : Nat × Nat) (i : Nat) : Nat × Nat :=
  let b := rotr (wsub ab.2 (kt.getD (2 * i + 1) 0)) ab.1 ^^^ ab.1
  let a := rotr (wsub ab.1 (kt.getD (2 * i) 0)) b ^^^ b
  (a, b)

/-- `decode` from `lib.rs` (the value computed on well-formed inputs;
the length assertions are modelled separately by `decodeChecked`). -/
def decode (kt ct : List Nat) : List Nat :=
  let ab := ((List.range' 1 ROUNDS).reverse).foldl (decRound kt)
    (ct.getD 0 0, ct.getD 1 0)
  [wsub ab.1 (kt.getD 0 0), wsub ab.2 (kt.getD 1 0)]

/-- The spec's direct little-endian packing (§4.1, "Equivalently: word i =
bytes[4i] | bytes[4i+1]<<8 | bytes[4i+2]<<16 | bytes[4i+3]<<24"). -/
def keyWordsLE (key : List Nat) : List Nat :=
  (List.range KEY_WORDS).map (fun i =>
    key.getD (4 * i) 0 ||| key.getD (4 * i + 1) 0 <<< 8 |||
    key.getD (4 * i + 2) 0 <<< 16 ||| key.getD (4 * i + 3) 0 <<< 24)

/-- The spec's key-table initialisation, written as the recurrence of the
claim: `table[0] = P`, `table[i] = table[i-1] + Q` (wrapping). -/
def specTableEntry : Nat → Nat
  | 0 => P
  | i + 1 => wadd (specTableEntry i) Q

/-- The 26-word initial table of the claim. -/
def specInitTable : List Nat := (List.range 26).map specTableEntry

/-- One mixing step of the claim's reference key schedule: step `i` uses the
cyclic cursors `t = i % 26` and `w = i % 4`, sets
`A = rotl(table[t] + A + B, 3)` into `table[t]`, then
`B = rotl(words[w] + A + B, (A + B) mod 32)` into `words[w]`. -/
def specMixStep (i : Nat) (st : List Nat × List Nat × Nat × Nat) :
    List Nat × List Nat × Nat × Nat :=
  let t := i % 26
  let a2 := rotl (wadd (wadd (st.1.getD t 0) st.2.2.1) st.2.2.2) 3
  let w := i % 4
  let b2 := rotl (wadd (wadd (st.2.1.getD w 0) a2) st.2.2.2) ((a2 + st.2.2.2) % 32)
  (st.1.set t a2, st.2.1.set w b2, a2, b2)

/-- The claim's mixing loop: `n` steps, in order `0, 1, ..., n-1`. -/
def specMixN : Nat → (List Nat × List Nat × Nat × Nat) →
    List Nat × List Nat × Nat × Nat
  | 0, st => st
  | n + 1, st => specMixStep n (specMixN n st)

/-- The claim's reference key schedule: direct little-endian packing, the
`P`/`Q` recurrence, then 78 mixing steps; the table component is returned. -/
def specKeyTable (key : List Nat) : List Nat :=
  (specMixN 78 (specInitTable, keyWordsLE key, 0, 0)).1

/-- The rounds `1..n` of `encode`, written as the claim's increasing
recursion (round `i` reads `key_table[2i]` and `key_table[2i+1]`,
`B`'s update uses the just-updated `A`). -/
def specEncRounds (kt : List Nat) : Nat → Nat × Nat → Nat × Nat
  | 0, ab => ab
  | n + 1, ab =>
    let prev := specEncRounds kt n ab
    let a := wadd (rotl (prev.1 ^^^ prev.2) (prev.2 % 32)) (kt.getD (2 * (n + 1)) 0)
    (a, wadd (rotl (prev.2 ^^^ a) (a % 32)) (kt.getD (2 * (n + 1) + 1) 0))

/-- The claim's `encode`: initial whitening, then rounds `1..12` upward. -/
def specEncode (kt pt : List Nat) : List Nat :=
  let ab := specEncRounds kt 12
    (wadd (pt.getD 0 0) (kt.getD 0 0), wadd (pt.getD 1 0) (kt.getD 1 0))
  [ab.1, ab.2]

/-- The rounds `n..1` of `decode`, written as the claim's decreasing
recursion (round `i` first updates `B` using the pre-update `A`, then `A`
using the new `B`). -/
def specDecRounds (kt : List Nat) : Nat → Nat × Nat → Nat × Nat
  | 0, ab => ab
  | n + 1, ab =>
    let b := rotr (wsub ab.2 (kt.getD (2 * (n + 1) + 1) 0)) (ab.1 % 32) ^^^ ab.1
    let a := rotr (wsub ab.1 (kt.getD (2 * (n + 1)) 0)) (b % 32) ^^^ b
    specDecRounds kt n (a, b)

/-- The claim's `decode`: rounds `12..1` downward, then final un-whitening. -/
def specDecode (kt ct : List Nat) : List Nat :=
  let ab := specDecRounds kt 12 (ct.getD 0 0, ct.getD 1 0)
  [wsub ab.1 (kt.getD 0 0), wsub ab.2 (kt.getD 1 0)]

/-- A left fold whose body may fail; `none` models a panic inside a loop. -/
def foldChecked {α β : Type} (f : β → α → Option β) : List α → β → Option β
  | [], b => some b
  | a :: l, b =>
    match f b a with
    | some b2 => foldChecked f l b2
    | none => none

/-- One `encode` round with the key-table indexing made explicit:
reading `key_table[2i]` or `key_table[2i+1]` out of bounds is a panic. -/
def encRoundChecked (kt : List Nat) (ab : Nat × Nat) (i : Nat) :
    Option (Nat × Nat) :=
  (kt[2 * i]?).bind fun k0 => (kt[2 * i + 1]?).map fun k1 =>
    let a := wadd (rotl (ab.1 ^^^ ab.2) ab.2) k0
    (a, wadd (rotl (ab.2 ^^^ a) a) k1)

/-- `encode` with the source's `assert_eq!` length preconditions and checked
indexing; `none` models a panic. -/
def encodeChecked (kt pt : List Nat) : Option (List Nat) :=
  if kt.length = KEY_TABLE_WORDS ∧ pt.length = 2 then
    (pt[0]?).bind fun p0 => (pt[1]?).bind fun p1 =>
    (kt[0]?).bind fun k0 => (kt[1]?).bind fun k1 =>
    (foldChecked (encRoundChecked kt) (List.range' 1 ROUNDS)
      (wadd p0 k0, wadd p1 k1)).map fun ab => [ab.1, ab.2]
  else none

/-- One `decode` round with the key-table indexing made explicit. -/
def decRoundChecked (kt : List Nat) (ab : Nat × Nat) (i : Nat) :
    Option (Nat × Nat) :=
  (kt[2 * i]?).bind fun k0 => (kt[2 * i + 1]?).map fun k1 =>
    let b := rotr (wsub ab.2 k1) ab.1 ^^^ ab.1
    (rotr (wsub ab.1 k0) b ^^^ b, b)

/-- `decode` with the source's `assert_eq!` length preconditions and checked
indexing; `none` models a panic. -/
def decodeChecked (kt ct : List Nat) : Option (List Nat) :=
  if kt.length = KEY_TABLE_WORDS ∧ ct.length = 2 then
    (ct[0]?).bind fun c0 => (ct[1]?).bind fun c1 =>
    (kt[0]?).bind fun k0 => (kt[1]?).bind fun k1 =>
    (foldChecked (decRoundChecked kt) ((List.range' 1 ROUNDS).reverse)
      (c0, c1)).map fun ab => [wsub ab.1 k0, wsub ab.2 k1]
  else none

/-- Step 1 of `key_table` with each panic source explicit: the iterator
`unwrap` is a checked read of the reversed byte list, and the plain `+`
(non-wrapping in the source) is checked against `u32` overflow. -/
def packFoldChecked (r : List Nat) (j : Nat) : Option Nat :=
  foldChecked (fun v l =>
    (r[4 * j + l]?).bind fun b =>
      if (v <<< 8) % w32 + b < w32 then some ((v <<< 8) % w32 + b) else none)
    (List.range 4) 0

/-- Checked step 1 of `key_table`: the four words (built backward, then
reversed as by `collect_rev`). -/
def keyWordsChecked (key : List Nat) : Option (List Nat) :=
  (packFoldChecked key.reverse 0).bind fun w0 =>
  (packFoldChecked key.reverse 1).bind fun w1 =>
  (packFoldChecked key.reverse 2).bind fun w2 =>
  (packFoldChecked key.reverse 3).map fun w3 => [w0, w1, w2, w3].reverse

/-- One step-3 mixing iteration with the two indexed reads made explicit. -/
def mixStepChecked (st : List Nat × List Nat × Nat × Nat) (i : Nat) :
    Option (List Nat × List Nat × Nat × Nat) :=
  (st.1[i % KEY_TABLE_WORDS]?).bind fun tv =>
  (st.2.1[i % KEY_WORDS]?).map fun wv =>
    let a2 := rotl (wadd (wadd tv st.2.2.1) st.2.2.2) 3
    let b2 := rotl (wadd (wadd wv a2) st.2.2.2) (wadd a2 st.2.2.2)
    (st.1.set (i % KEY_TABLE_WORDS) a2, st.2.1.set (i % KEY_WORDS) b2, a2, b2)

/-- `key_table` with the source's `assert_eq!` length precondition and every
panic source explicit; `none` models a panic. -/
def key_tableChecked (key : List Nat) : Option (List Nat) :=
  if key.length = KEY_BYTES then
    (keyWordsChecked key).bind fun kw =>
    (foldChecked mixStepChecked (List.range (3 * KEY_TABLE_WORDS))
      (initKeyTable, kw, 0, 0)).map fun st => st.1
  else none

/-- Modelled from the spec: `bytes_to_words` (§4.1). The repository has no
standalone byte/word conversion operation (the packing is inlined in
`key_table` and the tests transmute natively), so the operation follows the
spec's words: word `i` = bytes[4i] | bytes[4i+1]<<8 | bytes[4i+2]<<16 |
bytes[4i+3]<<24, for `word_count` words. -/
def bytes_to_words : List Nat → Nat → List Nat
  | _, 0 => []
  | b, n + 1 =>
    (b.getD 0 0 ||| b.getD 1 0 <<< 8 ||| b.getD 2 0 <<< 16 ||| b.getD 3 0 <<< 24) ::
    bytes_to_words (b.drop 4) n

/-- Modelled from the spec: `words_to_bytes`, the "exact inverse, same
endianness rule": each word emits its four bytes least-significant first. -/
def words_to_bytes : List Nat → List Nat
  | [] => []
  | w :: ws =>
    w % 256 :: w / 256 % 256 :: w / 65536 % 256 :: w / 16777216 % 256 ::
    words_to_bytes ws

theorem w32_eq : w32 = 2 ^ 32 := rfl

theorem w32_pos : 0 < w32 := by decide

theorem wadd_lt (a b : Nat) : wadd a b < w32 := Nat.mod_lt _ w32_pos

theorem wsub_lt (a b : Nat) : wsub a b < w32 := Nat.mod_lt _ w32_pos

theorem wsub_wadd (x k : Nat) : wsub (wadd x k) k = x % w32 := by
  simp only [wadd, wsub, w32]
  omega

theorem wadd_wsub (x k : Nat) : wadd (wsub x k) k = x % w32 := by
  simp only [wadd, wsub, w32]
  omega

/-- Splitting `2 ^ 32` at the (reduced) rotation amount. -/
theorem pow_split (n : Nat) : 2 ^ (32 - n % 32) * 2 ^ (n % 32) = w32 := by
  rw [← Nat.pow_add, w32_eq]
  congr 1
  omega

theorem pow_split' (n : Nat) : 2 ^ (n % 32) * 2 ^ (32 - n % 32) = w32 := by
  rw [Nat.mul_comm]
  exact pow_split n

/-- Cutting a number below `d * s` at `d` and reassembling the two parts
(low part shifted up by `s`) stays below `d * s`. -/
theorem split_lt (d s y : Nat) (hd : 0 < d) (hs : 0 < s) (hy : y < d * s) :
    (y % d) * s + y / d < d * s := by
  have h1 : y % d < d := Nat.mod_lt _ hd
  have h2 : y / d < s := Nat.div_lt_of_lt_mul hy
  calc (y % d) * s + y / d < (y % d) * s + s := by omega
    _ = (y % d + 1) * s := by ring
    _ ≤ d * s := Nat.mul_le_mul_right _ (by omega)

/-- Cutting at `d`, reassembling, then cutting the result at `s` and
reassembling again recovers the original number. -/
theorem split_merge (d s y : Nat) (hd : 0 < d) (hs : 0 < s) (hy : y < d * s) :
    ((y % d) * s + y / d) % s * d + ((y % d) * s + y / d) / s = y := by
  have h2 : y / d < s := Nat.div_lt_of_lt_mul hy
  have hmod : ((y % d) * s + y / d) % s = y / d := by
    rw [Nat.mul_comm (y % d) s, Nat.mul_add_mod, Nat.mod_eq_of_lt h2]
  have hdiv : ((y % d) * s + y / d) / s = y % d := by
    rw [Nat.add_comm, Nat.add_mul_div_right _ _ hs, Nat.div_eq_of_lt h2, Nat.zero_add]
  rw [hmod, hdiv, Nat.add_comm, Nat.mod_add_div']

theorem rotl_lt (x n : Nat) : rotl x n < w32 := by
  unfold rotl
  have := split_lt (2 ^ (32 - n % 32)) (2 ^ (n % 32)) (x % w32)
    (Nat.pos_pow_of_pos _ (by decide)) (Nat.pos_pow_of_pos _ (by decide))
    (by rw [pow_split]; exact Nat.mod_lt _ w32_pos)
  rwa [pow_split] at this

theorem rotr_lt (x n : Nat) : rotr x n < w32 := by
  unfold rotr
  have := split_lt (2 ^ (n % 32)) (2 ^ (32 - n % 32)) (x % w32)
    (Nat.pos_pow_of_pos _ (by decide)) (Nat.pos_pow_of_pos _ (by decide))
    (by rw [pow_split']; exact Nat.mod_lt _ w32_pos)
  rwa [pow_split'] at this

theorem rotr_rotl (x n : Nat) : rotr (rotl x n) n = x % w32 := by
  have hlt := rotl_lt x n
  unfold rotr
  rw [Nat.mod_eq_of_lt hlt]
  unfold rotl
  exact split_merge (2 ^ (32 - n % 32)) (2 ^ (n % 32)) (x % w32)
    (Nat.pos_pow_of_pos _ (by decide)) (Nat.pos_pow_of_pos _ (by decide))
    (by rw [pow_split]; exact Nat.mod_lt _ w32_pos)

theorem rotl_rotr (x n : Nat) : rotl (rotr x n) n = x % w32 := by
  have hlt := rotr_lt x n
  unfold rotl
  rw [Nat.mod_eq_of_lt hlt]
  unfold rotr
  exact split_merge (2 ^ (n % 32)) (2 ^ (32 - n % 32)) (x % w32)
    (Nat.pos_pow_of_pos _ (by decide)) (Nat.pos_pow_of_pos _ (by decide))
    (by rw [pow_split']; exact Nat.mod_lt _ w32_pos)

/-- Bitwise xor of two `u32` values is a `u32` value. -/
theorem xor_lt (x y : Nat) (hx : x < w32) (hy : y < w32) : x ^^^ y < w32 := by
  rw [w32_eq] at *
  exact Nat.bitwise_lt hx hy

/-- Bitwise or with a shifted value is addition when the low part fits
below the shift. -/
theorem lor_eq_add (k a b : Nat) (h : a < 2 ^ k) :
    a ||| b * 2 ^ k = a + b * 2 ^ k := by
  induction k generalizing a b with
  | zero =>
    have ha : a = 0 := by omega
    subst ha
    simp [Nat.zero_or]
  | succ k ih =>
    have ha2 : a >>> 1 < 2 ^ k := by
      rw [Nat.shiftRight_one]
      rw [Nat.pow_succ] at h
      omega
    have hb : b * 2 ^ (k + 1) = Nat.bit false (b * 2 ^ k) := by
      rw [Nat.bit_val, Nat.pow_succ]
      simp
      ring
    have hd : 2 * (a >>> 1) + (a.testBit 0).toNat = a := by
      have hbit := Nat.bit_testBit_zero_shiftRight_one a
      rw [Nat.bit_val] at hbit
      omega
    conv_lhs => rw [← Nat.bit_testBit_zero_shiftRight_one a, hb]
    rw [Nat.lor_bit, Bool.or_false, ih _ _ ha2]
    calc Nat.bit (a.testBit 0) (a >>> 1 + b * 2 ^ k)
        = 2 * (a >>> 1 + b * 2 ^ k) + (a.testBit 0).toNat := Nat.bit_val _ _
      _ = (2 * (a >>> 1) + (a.testBit 0).toNat) + b * (2 ^ k * 2) := by ring
      _ = a + b * 2 ^ (k + 1) := by rw [hd, Nat.pow_succ]

/-- Assembling four bytes little-endian with `|` equals the corresponding
sum of shifted bytes. -/
theorem le_pack (b0 b1 b2 b3 : Nat)
    (h0 : b0 < 256) (h1 : b1 < 256) (h2 : b2 < 256) (h3 : b3 < 256) :
    b0 ||| b1 <<< 8 ||| b2 <<< 16 ||| b3 <<< 24 =
    b0 + b1 * 256 + b2 * 65536 + b3 * 16777216 := by
  rw [Nat.shiftLeft_eq, Nat.shiftLeft_eq, Nat.shiftLeft_eq]
  rw [lor_eq_add 8 b0 b1 (by omega)]
  rw [lor_eq_add 16 _ b2 (by norm_num; omega)]
  rw [lor_eq_add 24 _ b3 (by norm_num; omega)]
  norm_num

/-- The source's reverse-scan word packing agrees with direct little-endian
packing on every 16-byte key. -/
theorem keyWords_eq (key : List Nat) (hl : key.length = 16)
    (hb : ∀ b ∈ key, b < 256) : keyWordsOfBytes key = keyWordsLE key := by
  rcases key with _ | ⟨b0, _ | ⟨b1, _ | ⟨b2, _ | ⟨b3, _ | ⟨b4, _ | ⟨b5, _ | ⟨b6, _ | ⟨b7, _ | ⟨b8, _ | ⟨b9, _ | ⟨b10, _ | ⟨b11, _ | ⟨b12, _ | ⟨b13, _ | ⟨b14, _ | ⟨b15, tail⟩⟩⟩⟩⟩⟩⟩⟩⟩⟩⟩⟩⟩⟩⟩⟩ <;>
    simp only [List.length_cons, List.length_nil] at hl <;> try omega
  have htail : tail = [] := by
    cases tail with
    | nil => rfl
    | cons x t =>
      exfalso
      simp only [List.length_cons] at hl
      omega
  subst htail
  have h0 : b0 < 256 := hb _ (by simp)
  have h1 : b1 < 256 := hb _ (by simp)
  have h2 : b2 < 256 := hb _ (by simp)
  have h3 : b3 < 256 := hb _ (by simp)
  have h4 : b4 < 256 := hb _ (by simp)
  have h5 : b5 < 256 := hb _ (by simp)
  have h6 : b6 < 256 := hb _ (by simp)
  have h7 : b7 < 256 := hb _ (by simp)
  have h8 : b8 < 256 := hb _ (by simp)
  have h9 : b9 < 256 := hb _ (by simp)
  have h10 : b10 < 256 := hb _ (by simp)
  have h11 : b11 < 256 := hb _ (by simp)
  have h12 : b12 < 256 := hb _ (by simp)
  have h13 : b13 < 256 := hb _ (by simp)
  have h14 : b14 < 256 := hb _ (by simp)
  have h15 : b15 < 256 := hb _ (by simp)
  simp only [keyWordsOfBytes, keyWordsLE, KEY_WORDS]
  norm_num [List.range_succ]
  rw [le_pack _ _ _ _ h0 h1 h2 h3, le_pack _ _ _ _ h4 h5 h6 h7,
    le_pack _ _ _ _ h8 h9 h10 h11, le_pack _ _ _ _ h12 h13 h14 h15]
  simp only [w32]
  norm_num [Nat.shiftLeft_eq]
  omega

theorem initKeyTable_eq_spec : initKeyTable = specInitTable := by decide

/-- A rotation amount can be reduced mod 32 without changing the rotation. -/
theorem rotl_amount_mod (z m : Nat) : rotl z (m % 32) = rotl z m := by
  unfold rotl
  have h : m % 32 % 32 = m % 32 := by omega
  rw [h]

theorem rotr_amount_mod (z m : Nat) : rotr z (m % 32) = rotr z m := by
  unfold rotr
  have h : m % 32 % 32 = m % 32 := by omega
  rw [h]

/-- The claim's rotation amount `(A + B) mod 32` agrees with the source's
wrapping sum used as a rotation amount. -/
theorem rotl_add_amount (z a b : Nat) : rotl z ((a + b) % 32) = rotl z (wadd a b) := by
  unfold rotl
  have h : (a + b) % 32 % 32 = wadd a b % 32 := by
    unfold wadd w32
    omega
  rw [h]

theorem mixStep_eq_spec (st : List Nat × List Nat × Nat × Nat) (i : Nat) :
    mixStep st i = specMixStep i st := by
  simp only [mixStep, specMixStep, KEY_TABLE_WORDS, KEY_WORDS, ROUNDS,
    rotl_add_amount]

theorem mix_foldl_eq_spec (n : Nat) (st : List Nat × List Nat × Nat × Nat) :
    (List.range n).foldl mixStep st = specMixN n st := by
  induction n with
  | zero => rfl
  | succ n ih =>
    rw [List.range_succ, List.foldl_append, List.foldl_cons, List.foldl_nil,
      ih, mixStep_eq_spec]
    rfl

theorem enc_foldl_eq_spec (kt : List Nat) (n : Nat) (ab : Nat × Nat) :
    (List.range' 1 n).foldl (encRound kt) ab = specEncRounds kt n ab := by
  induction n with
  | zero => rfl
  | succ n ih =>
    rw [List.range'_concat, List.foldl_append, List.foldl_cons, List.foldl_nil, ih]
    simp only [specEncRounds, encRound, rotl_amount_mod]
    have h : 1 + 1 * n = n + 1 := by omega
    rw [h]

theorem dec_foldl_eq_spec (kt : List Nat) (n : Nat) (ab : Nat × Nat) :
    ((List.range' 1 n).reverse).foldl (decRound kt) ab = specDecRounds kt n ab := by
  induction n generalizing ab with
  | zero => rfl
  | succ n ih =>
    rw [List.range'_concat, List.reverse_append, List.reverse_cons,
      List.reverse_nil, List.nil_append, List.singleton_append,
      List.foldl_cons, ih]
    simp only [specDecRounds, decRound, rotr_amount_mod]
    have h : 1 + 1 * n = n + 1 := by omega
    rw [h]

/-- Undoing one half-round: subtract the round key, rotate back, xor. -/
theorem undo_half (x y k : Nat) (hx : x < w32) (hy : y < w32) :
    rotr (wsub (wadd (rotl (x ^^^ y) y) k) k) y ^^^ y = x := by
  rw [wsub_wadd, Nat.mod_eq_of_lt (rotl_lt _ _), rotr_rotl,
    Nat.mod_eq_of_lt (xor_lt _ _ hx hy), Nat.xor_cancel_right]

/-- Redoing one half-round on top of its undoing recovers the word. -/
theorem redo_half (z y k : Nat) (hz : z < w32) :
    wadd (rotl ((rotr (wsub z k) y ^^^ y) ^^^ y) y) k = z := by
  rw [Nat.xor_cancel_right, rotl_rotr, Nat.mod_eq_of_lt (wsub_lt _ _),
    wadd_wsub, Nat.mod_eq_of_lt hz]

/-- A `decode` round inverts the corresponding `encode` round. -/
theorem decRound_encRound (kt : List Nat) (i : Nat) (a0 b0 : Nat)
    (ha : a0 < w32) (hb : b0 < w32) :
    decRound kt (encRound kt (a0, b0) i) i = (a0, b0) := by
  have hA : wadd (rotl (a0 ^^^ b0) b0) (kt.getD (2 * i) 0) < w32 := wadd_lt _ _
  simp only [encRound, decRound]
  rw [undo_half b0 _ _ hb hA, undo_half a0 b0 _ ha hb]

/-- An `encode` round inverts the corresponding `decode` round. -/
theorem encRound_decRound (kt : List Nat) (i : Nat) (a1 b1 : Nat)
    (ha : a1 < w32) (hb : b1 < w32) :
    encRound kt (decRound kt (a1, b1) i) i = (a1, b1) := by
  simp only [decRound, encRound]
  rw [redo_half a1 _ _ ha, redo_half b1 a1 _ hb]

theorem encRound_bounds (kt : List Nat) (ab : Nat × Nat) (i : Nat) :
    (encRound kt ab i).1 < w32 ∧ (encRound kt ab i).2 < w32 :=
  ⟨wadd_lt _ _, wadd_lt _ _⟩

theorem decRound_bounds (kt : List Nat) (ab : Nat × Nat) (i : Nat)
    (ha : ab.1 < w32) : (decRound kt ab i).1 < w32 ∧ (decRound kt ab i).2 < w32 :=
  ⟨xor_lt _ _ (rotr_lt _ _) (xor_lt _ _ (rotr_lt _ _) ha),
   xor_lt _ _ (rotr_lt _ _) ha⟩

/-- Folding a step-wise inverse over the reversed index list undoes a fold,
given an invariant preserved by the forward step. -/
theorem foldl_foldl_reverse {α β : Type} (Inv : β → Prop) (f g : β → α → β)
    (l : List α)
    (hinv : ∀ a ∈ l, ∀ x, Inv x → g (f x a) a = x)
    (hpres : ∀ a ∈ l, ∀ x, Inv x → Inv (f x a)) :
    ∀ x, Inv x → List.foldl g (List.foldl f x l) l.reverse = x := by
  induction l with
  | nil => intro x _; rfl
  | cons a t ih =>
    intro x hx
    simp only [List.foldl_cons, List.reverse_cons]
    rw [List.foldl_append, List.foldl_cons, List.foldl_nil]
    rw [ih (fun b hb => hinv b (List.mem_cons_of_mem a hb))
      (fun b hb => hpres b (List.mem_cons_of_mem a hb))
      (f x a) (hpres a (List.mem_cons_self a t) x hx)]
    exact hinv a (List.mem_cons_self a t) x hx

/-- An invariant preserved by each step is preserved by the whole fold. -/
theorem foldl_invariant {α β : Type} (Inv : β → Prop) (f : β → α → β)
    (l : List α) (hpres : ∀ a ∈ l, ∀ x, Inv x → Inv (f x a)) :
    ∀ x, Inv x → Inv (List.foldl f x l) := by
  induction l with
  | nil => intro x hx; exact hx
  | cons a t ih =>
    intro x hx
    rw [List.foldl_cons]
    exact ih (fun b hb => hpres b (List.mem_cons_of_mem a hb))
      (f x a) (hpres a (List.mem_cons_self a t) x hx)

/-- Decoding an encoded 2-word block yields the block back, for every key
table list. -/
theorem decode_encode_aux (kt : List Nat) (p0 p1 : Nat)
    (h0 : p0 < w32) (h1 : p1 < w32) :
    decode kt (encode kt [p0, p1]) = [p0, p1] := by
  simp only [encode, decode, List.getD_cons_zero, List.getD_cons_succ]
  rw [foldl_foldl_reverse (fun ab => ab.1 < w32 ∧ ab.2 < w32)
    (encRound kt) (decRound kt) (List.range' 1 ROUNDS)
    (fun i _ x hx => by
      have := decRound_encRound kt i x.1 x.2 hx.1 hx.2
      simpa using this)
    (fun i _ x _ => encRound_bounds kt x i)
    (wadd p0 (kt.getD 0 0), wadd p1 (kt.getD 1 0)) ⟨wadd_lt _ _, wadd_lt _ _⟩]
  rw [wsub_wadd, wsub_wadd, Nat.mod_eq_of_lt h0, Nat.mod_eq_of_lt h1]

/-- Encoding a decoded 2-word block yields the block back, for every key
table list. -/
theorem encode_decode_aux (kt : List Nat) (c0 c1 : Nat)
    (h0 : c0 < w32) (h1 : c1 < w32) :
    encode kt (decode kt [c0, c1]) = [c0, c1] := by
  simp only [encode, decode, List.getD_cons_zero, List.getD_cons_succ]
  have hd := foldl_invariant (fun ab => ab.1 < w32 ∧ ab.2 < w32)
    (decRound kt) ((List.range' 1 ROUNDS).reverse)
    (fun i _ x hx => decRound_bounds kt x i hx.1)
    (c0, c1) ⟨h0, h1⟩
  rw [wadd_wsub, wadd_wsub, Nat.mod_eq_of_lt hd.1, Nat.mod_eq_of_lt hd.2]
  have hrev := foldl_foldl_reverse (fun ab => ab.1 < w32 ∧ ab.2 < w32)
    (decRound kt) (encRound kt) ((List.range' 1 ROUNDS).reverse)
    (fun i _ x hx => by
      have := encRound_decRound kt i x.1 x.2 hx.1 hx.2
      simpa using this)
    (fun i _ x hx => decRound_bounds kt x i hx.1)
    (c0, c1) ⟨h0, h1⟩
  rw [List.reverse_reverse] at hrev
  rw [hrev]

/-- The mixing fold preserves the length of the key-table component. -/
theorem mix_foldl_length (l : List Nat) :
    ∀ st : List Nat × List Nat × Nat × Nat, st.1.length = 26 →
      ((l.foldl mixStep st).1).length = 26 := by
  intro st hst
  refine foldl_invariant (fun st => st.1.length = 26) mixStep l ?_ st hst
  intro a _ x hx
  simp only [mixStep, List.length_set]
  exact hx

/-- `key_table` always returns 26 words. -/
theorem key_table_length (key : List Nat) : (key_table key).length = 26 := by
  unfold key_table
  apply mix_foldl_length
  show initKeyTable.length = 26
  decide

/-- A checked fold equals `some` of the plain fold when each step succeeds
on states satisfying an invariant the plain step preserves. -/
theorem foldChecked_eq_foldl {α β : Type} (Inv : β → Prop)
    (f : β → α → Option β) (g : β → α → β) (l : List α)
    (hf : ∀ a ∈ l, ∀ x, Inv x → f x a = some (g x a))
    (hpres : ∀ a ∈ l, ∀ x, Inv x → Inv (g x a)) :
    ∀ x, Inv x → foldChecked f l x = some (List.foldl g x l) := by
  induction l with
  | nil => intro x _; rfl
  | cons a t ih =>
    intro x hx
    rw [List.foldl_cons]
    simp only [foldChecked]
    rw [hf a (List.mem_cons_self a t) x hx]
    exact ih (fun b hb => hf b (List.mem_cons_of_mem a hb))
      (fun b hb => hpres b (List.mem_cons_of_mem a hb))
      (g x a) (hpres a (List.mem_cons_self a t) x hx)

theorem encRoundChecked_eq (kt : List Nat) (ab : Nat × Nat) (i : Nat)
    (h : 2 * i + 1 < kt.length) :
    encRoundChecked kt ab i = some (encRound kt ab i) := by
  have h0 : 2 * i < kt.length := by omega
  unfold encRoundChecked encRound
  rw [List.getElem?_eq_getElem h0, List.getElem?_eq_getElem h,
    List.getD_eq_getElem kt 0 h0, List.getD_eq_getElem kt 0 h]
  rfl

theorem decRoundChecked_eq (kt : List Nat) (ab : Nat × Nat) (i : Nat)
    (h : 2 * i + 1 < kt.length) :
    decRoundChecked kt ab i = some (decRound kt ab i) := by
  have h0 : 2 * i < kt.length := by omega
  unfold decRoundChecked decRound
  rw [List.getElem?_eq_getElem h0, List.getElem?_eq_getElem h,
    List.getD_eq_getElem kt 0 h0, List.getD_eq_getElem kt 0 h]
  rfl

/-- On well-sized inputs, checked `encode` succeeds and computes `encode`. -/
theorem encodeChecked_some (kt pt : List Nat) (hk : kt.length = 26)
    (hp : pt.length = 2) : encodeChecked kt pt = some (encode kt pt) := by
  unfold encodeChecked
  rw [if_pos ⟨hk, hp⟩]
  rw [List.getElem?_eq_getElem (show 0 < pt.length by omega),
    List.getElem?_eq_getElem (show 1 < pt.length by omega),
    List.getElem?_eq_getElem (show 0 < kt.length by omega),
    List.getElem?_eq_getElem (show 1 < kt.length by omega)]
  simp only [Option.some_bind]
  rw [foldChecked_eq_foldl (fun _ => True) (encRoundChecked kt) (encRound kt)
    (List.range' 1 ROUNDS)
    (fun a ha x _ => by
      have hm := List.mem_range'_1.mp ha
      have hR : 1 + ROUNDS = 13 := rfl
      exact encRoundChecked_eq kt x a (by omega))
    (fun _ _ _ _ => trivial) _ trivial]
  rw [Option.map_some']
  unfold encode
  rw [List.getD_eq_getElem pt 0 (by omega), List.getD_eq_getElem pt 0 (by omega),
    List.getD_eq_getElem kt 0 (by omega), List.getD_eq_getElem kt 0 (by omega)]

/-- On well-sized inputs, checked `decode` succeeds and computes `decode`. -/
theorem decodeChecked_some (kt ct : List Nat) (hk : kt.length = 26)
    (hc : ct.length = 2) : decodeChecked kt ct = some (decode kt ct) := by
  unfold decodeChecked
  rw [if_pos ⟨hk, hc⟩]
  rw [List.getElem?_eq_getElem (show 0 < ct.length by omega),
    List.getElem?_eq_getElem (show 1 < ct.length by omega),
    List.getElem?_eq_getElem (show 0 < kt.length by omega),
    List.getElem?_eq_getElem (show 1 < kt.length by omega)]
  simp only [Option.some_bind]
  rw [foldChecked_eq_foldl (fun _ => True) (decRoundChecked kt) (decRound kt)
    ((List.range' 1 ROUNDS).reverse)
    (fun a ha x _ => by
      have hm := List.mem_range'_1.mp (List.mem_reverse.mp ha)
      have hR : 1 + ROUNDS = 13 := rfl
      exact decRoundChecked_eq kt x a (by omega))
    (fun _ _ _ _ => trivial) _ trivial]
  rw [Option.map_some']
  unfold decode
  rw [List.getD_eq_getElem ct 0 (by omega), List.getD_eq_getElem ct 0 (by omega),
    List.getD_eq_getElem kt 0 (by omega), List.getD_eq_getElem kt 0 (by omega)]

/-- The checked step-1 addition never overflows: the shifted accumulator has
a zero low byte, so adding a byte stays below `2 ^ 32`. -/
theorem shift_add_byte_lt (v b : Nat) (hb : b < 256) :
    (v <<< 8) % w32 + b < w32 := by
  rw [Nat.shiftLeft_eq]
  have h : v * 2 ^ 8 % w32 = 256 * (v % 16777216) := by
    rw [show (2 : Nat) ^ 8 = 256 from rfl, Nat.mul_comm v 256,
      show w32 = 256 * 16777216 from rfl, Nat.mul_mod_mul_left]
  rw [h, show w32 = 256 * 16777216 from rfl]
  have : v % 16777216 < 16777216 := Nat.mod_lt _ (by decide)
  omega

theorem packFoldChecked_eq (r : List Nat) (j : Nat) (hj : j < 4)
    (hr : r.length = 16) (hb : ∀ b ∈ r, b < 256) :
    packFoldChecked r j =
    some ((List.range 4).foldl
      (fun v l => (v <<< 8) % w32 + r.getD (4 * j + l) 0) 0) := by
  unfold packFoldChecked
  refine foldChecked_eq_foldl (fun _ => True) _ _ _ ?_ (fun _ _ _ _ => trivial)
    _ trivial
  intro l hl v _
  have hl4 : l < 4 := List.mem_range.mp hl
  have hidx : 4 * j + l < r.length := by omega
  rw [List.getElem?_eq_getElem hidx]
  have hblt : r[4 * j + l] < 256 := hb _ (List.getElem_mem hidx)
  rw [Option.some_bind, if_pos (shift_add_byte_lt v _ hblt),
    List.getD_eq_getElem r 0 hidx]

/-- The four words of step 1 have the shape produced by `keyWordsOfBytes`. -/
theorem keyWordsOfBytes_eq_explicit (key : List Nat) :
    keyWordsOfBytes key =
    [(List.range 4).foldl (fun v l => (v <<< 8) % w32 + key.reverse.getD (4 * 0 + l) 0) 0,
     (List.range 4).foldl (fun v l => (v <<< 8) % w32 + key.reverse.getD (4 * 1 + l) 0) 0,
     (List.range 4).foldl (fun v l => (v <<< 8) % w32 + key.reverse.getD (4 * 2 + l) 0) 0,
     (List.range 4).foldl (fun v l => (v <<< 8) % w32 + key.reverse.getD (4 * 3 + l) 0) 0].reverse := by
  unfold keyWordsOfBytes
  have h : List.range KEY_WORDS = [0, 1, 2, 3] := by decide
  rw [h]
  rfl

theorem keyWordsChecked_eq (key : List Nat) (hl : key.length = 16)
    (hb : ∀ b ∈ key, b < 256) :
    keyWordsChecked key = some (keyWordsOfBytes key) := by
  have hr : key.reverse.length = 16 := by
    rw [List.length_reverse]
    exact hl
  have hbr : ∀ b ∈ key.reverse, b < 256 := fun b h => hb b (List.mem_reverse.mp h)
  unfold keyWordsChecked
  rw [packFoldChecked_eq _ 0 (by omega) hr hbr,
    packFoldChecked_eq _ 1 (by omega) hr hbr,
    packFoldChecked_eq _ 2 (by omega) hr hbr,
    packFoldChecked_eq _ 3 (by omega) hr hbr]
  simp only [Option.some_bind, Option.map_some']
  rw [keyWordsOfBytes_eq_explicit]

theorem keyWordsOfBytes_length (key : List Nat) :
    (keyWordsOfBytes key).length = 4 := by
  unfold keyWordsOfBytes
  rw [List.length_reverse, List.length_map, List.length_range]
  rfl

theorem mixStepChecked_eq (st : List Nat × List Nat × Nat × Nat) (i : Nat)
    (h1 : st.1.length = 26) (h2 : st.2.1.length = 4) :
    mixStepChecked st i = some (mixStep st i) := by
  have e1 : i % KEY_TABLE_WORDS = i % 26 := rfl
  have e2 : i % KEY_WORDS = i % 4 := rfl
  have ht : i % KEY_TABLE_WORDS < st.1.length := by
    rw [e1, h1]
    exact Nat.mod_lt _ (by decide)
  have hw : i % KEY_WORDS < st.2.1.length := by
    rw [e2, h2]
    exact Nat.mod_lt _ (by decide)
  simp only [mixStepChecked, mixStep]
  rw [List.getElem?_eq_getElem ht, List.getElem?_eq_getElem hw,
    List.getD_eq_getElem _ 0 ht, List.getD_eq_getElem _ 0 hw]
  rfl

/-- On a well-sized key, checked `key_table` succeeds and computes
`key_table`. -/
theorem key_tableChecked_some (key : List Nat) (hl : key.length = 16)
    (hb : ∀ b ∈ key, b < 256) :
    key_tableChecked key = some (key_table key) := by
  have hInit : initKeyTable.length = 26 := by decide
  unfold key_tableChecked
  rw [if_pos (show key.length = KEY_BYTES from hl)]
  rw [keyWordsChecked_eq key hl hb]
  simp only [Option.some_bind]
  rw [foldChecked_eq_foldl (fun st => st.1.length = 26 ∧ st.2.1.length = 4)
    mixStepChecked mixStep (List.range (3 * KEY_TABLE_WORDS))
    (fun a _ x hx => mixStepChecked_eq x a hx.1 hx.2)
    (fun a _ x hx => by
      simp only [mixStep, List.length_set]
      exact hx)
    _ ⟨hInit, keyWordsOfBytes_length key⟩]
  rfl

/-- A wrong key length makes checked `key_table` fail fast. -/
theorem key_tableChecked_none (key : List Nat) (h : key.length ≠ 16) :
    key_tableChecked key = none := by
  unfold key_tableChecked
  rw [show KEY_BYTES = 16 from rfl, if_neg h]

/-- Wrong lengths make checked `encode` fail fast. -/
theorem encodeChecked_none (kt pt : List Nat)
    (h : ¬(kt.length = 26 ∧ pt.length = 2)) : encodeChecked kt pt = none := by
  unfold encodeChecked
  rw [show KEY_TABLE_WORDS = 26 from rfl, if_neg h]

/-- Wrong lengths make checked `decode` fail fast. -/
theorem decodeChecked_none (kt ct : List Nat)
    (h : ¬(kt.length = 26 ∧ ct.length = 2)) : decodeChecked kt ct = none := by
  unfold decodeChecked
  rw [show KEY_TABLE_WORDS = 26 from rfl, if_neg h]

/-- `bytes_to_words` inverts `words_to_bytes` on `u32` word sequences. -/
theorem words_bytes_roundtrip (ws : List Nat) (h : ∀ w ∈ ws, w < w32) :
    bytes_to_words (words_to_bytes ws) ws.length = ws := by
  induction ws with
  | nil => rfl
  | cons w ws ih =>
    have hw : w < 4294967296 := h w (List.mem_cons_self w ws)
    simp only [words_to_bytes, List.length_cons, bytes_to_words,
      List.getD_cons_zero, List.getD_cons_succ, List.drop_succ_cons,
      List.drop_zero]
    rw [le_pack _ _ _ _ (by omega) (by omega) (by omega) (by omega)]
    rw [ih (fun x hx => h x (List.mem_cons_of_mem w hx))]
    congr 1
    omega

/-- `words_to_bytes` inverts `bytes_to_words` on byte sequences of length
`4 * word_count`. -/
theorem bytes_words_roundtrip (n : Nat) : ∀ bs : List Nat,
    bs.length = 4 * n → (∀ b ∈ bs, b < 256) →
    words_to_bytes (bytes_to_words bs n) = bs := by
  induction n with
  | zero =>
    intro bs h _
    have hnil : bs = [] := List.eq_nil_of_length_eq_zero (by omega)
    subst hnil
    rfl
  | succ n ih =>
    intro bs hlen hb
    rcases bs with _ | ⟨b0, _ | ⟨b1, _ | ⟨b2, _ | ⟨b3, rest⟩⟩⟩⟩ <;>
      simp only [List.length_cons, List.length_nil] at hlen <;> try omega
    have h0 : b0 < 256 := hb _ (by simp)
    have h1 : b1 < 256 := hb _ (by simp)
    have h2 : b2 < 256 := hb _ (by simp)
    have h3 : b3 < 256 := hb _ (by simp)
    simp only [bytes_to_words, List.getD_cons_zero, List.getD_cons_succ,
      List.drop_succ_cons, List.drop_zero, words_to_bytes]
    rw [le_pack _ _ _ _ h0 h1 h2 h3]
    rw [ih rest (by omega) (fun x hx => hb x (by simp [hx]))]
    simp only [List.cons.injEq]
    refine ⟨?_, ?_, ?_, ?_, ?_⟩ <;> first | trivial | omega

/-- C1: for every key table of exactly 26 words and every 2-word block,
`decode` is a two-sided inverse of `encode`:
`decode(kt, encode(kt, P)) = P` and `encode(kt, decode(kt, C)) = C`;
in particular, for every 16-byte key `K`,
`decode(expand(K), encode(expand(K), P)) = P`. -/
theorem claim1_roundtrip (kt p c key : List Nat)
    (hkt : kt.length = 26) (hktw : ∀ x ∈ kt, x < w32)
    (hp : p.length = 2) (hpw : ∀ x ∈ p, x < w32)
    (hc : c.length = 2) (hcw : ∀ x ∈ c, x < w32)
    (hkey : key.length = 16) (hkeyb : ∀ b ∈ key, b < 256) :
    decode kt (encode kt p) = p ∧ encode kt (decode kt c) = c ∧
    decode (key_table key) (encode (key_table key) p) = p := by
  rcases p with _ | ⟨p0, _ | ⟨p1, _ | ⟨q, prest⟩⟩⟩ <;>
    simp only [List.length_cons, List.length_nil] at hp <;> try omega
  rcases c with _ | ⟨c0, _ | ⟨c1, _ | ⟨q, crest⟩⟩⟩ <;>
    simp only [List.length_cons, List.length_nil] at hc <;> try omega
  have hp0 : p0 < w32 := hpw _ (by simp)
  have hp1 : p1 < w32 := hpw _ (by simp)
  have hc0 : c0 < w32 := hcw _ (by simp)
  have hc1 : c1 < w32 := hcw _ (by simp)
  exact ⟨decode_encode_aux kt p0 p1 hp0 hp1,
    encode_decode_aux kt c0 c1 hc0 hc1,
    decode_encode_aux (key_table key) p0 p1 hp0 hp1⟩

theorem claim1_roundtrip_witness :
    decode (List.replicate 26 0) (encode (List.replicate 26 0) [1, 2]) = [1, 2] ∧
    encode (List.replicate 26 0) (decode (List.replicate 26 0) [3, 4]) = [3, 4] ∧
    decode (key_table (List.replicate 16 0))
      (encode (key_table (List.replicate 16 0)) [1, 2]) = [1, 2] :=
  claim1_roundtrip (List.replicate 26 0) [1, 2] [3, 4] (List.replicate 16 0)
    (by decide) (by decide) (by decide) (by decide) (by decide) (by decide)
    (by decide) (by decide)

/-- C2: for every 16-byte key, `key_table` implements the reference key
schedule of the claim: direct little-endian packing into 4 words, the
`P`/`Q` arithmetic progression over 26 words, and 78 mixing steps with
cyclic cursors of period 26 and 4. -/
theorem claim2_key_schedule (key : List Nat) (hl : key.length = 16)
    (hb : ∀ b ∈ key, b < 256) : key_table key = specKeyTable key := by
  unfold key_table specKeyTable
  rw [keyWords_eq key hl hb, initKeyTable_eq_spec,
    show 3 * KEY_TABLE_WORDS = 78 from rfl, mix_foldl_eq_spec]

theorem claim2_key_schedule_witness :
    key_table (List.replicate 16 0) = specKeyTable (List.replicate 16 0) :=
  claim2_key_schedule (List.replicate 16 0) (by decide) (by decide)

/-- C3: for every 26-word key table and 2-word plaintext, `encode` computes
the claim's algorithm: whitening `A = p0 + kt[0]`, `B = p1 + kt[1]`, then
rounds `i = 1..12` upward with `A = rotl(A xor B, B mod 32) + kt[2i]` and
then `B = rotl(B xor A, A mod 32) + kt[2i+1]` using the updated `A`. -/
theorem claim3_encode_algorithm (kt pt : List Nat)
    (hkt : kt.length = 26) (hpt : pt.length = 2) :
    encode kt pt = specEncode kt pt := by
  unfold encode specEncode
  rw [show ROUNDS = 12 from rfl, enc_foldl_eq_spec]

theorem claim3_encode_algorithm_witness :
    encode (List.replicate 26 0) [1, 2] = specEncode (List.replicate 26 0) [1, 2] :=
  claim3_encode_algorithm (List.replicate 26 0) [1, 2] (by decide) (by decide)

/-- C4: for every 26-word key table and 2-word ciphertext, `decode` computes
the claim's algorithm: `A = c0`, `B = c1`, rounds `i = 12..1` downward with
`B = rotr(B - kt[2i+1], A mod 32) xor A` (pre-update `A`) and then
`A = rotr(A - kt[2i], B mod 32) xor B`, and final un-whitening
`(A - kt[0], B - kt[1])`. -/
theorem claim4_decode_algorithm (kt ct : List Nat)
    (hkt : kt.length = 26) (hct : ct.length = 2) :
    decode kt ct = specDecode kt ct := by
  unfold decode specDecode
  rw [show ROUNDS = 12 from rfl, dec_foldl_eq_spec]

theorem claim4_decode_algorithm_witness :
    decode (List.replicate 26 0) [1, 2] = specDecode (List.replicate 26 0) [1, 2] :=
  claim4_decode_algorithm (List.replicate 26 0) [1, 2] (by decide) (by decide)

/-- C5: the source's reverse-scan word packing (fold `(v << 8) + byte` over
the reversed byte sequence, then reverse the words) is equal to direct
little-endian packing `word i = bytes[4i] | bytes[4i+1]<<8 | bytes[4i+2]<<16
| bytes[4i+3]<<24` on every 16-byte input. -/
theorem claim5_word_packing (key : List Nat) (hl : key.length = 16)
    (hb : ∀ b ∈ key, b < 256) : keyWordsOfBytes key = keyWordsLE key :=
  keyWords_eq key hl hb

theorem claim5_word_packing_witness :
    keyWordsOfBytes [0x00, 0x01, 0x02, 0x03, 0x04, 0x05, 0x06, 0x07, 0x08,
      0x09, 0x0A, 0x0B, 0x0C, 0x0D, 0x0E, 0x0F] =
    keyWordsLE [0x00, 0x01, 0x02, 0x03, 0x04, 0x05, 0x06, 0x07, 0x08, 0x09,
      0x0A, 0x0B, 0x0C, 0x0D, 0x0E, 0x0F] :=
  claim5_word_packing _ (by decide) (by decide)

set_option maxRecDepth 20000 in
/-- C6: on the key `00 01 .. 0F`, `key_table` returns exactly the 26 words
of the fixed test vector. -/
theorem claim6_key_table_vector :
    key_table [0x00, 0x01, 0x02, 0x03, 0x04, 0x05, 0x06, 0x07, 0x08, 0x09,
      0x0A, 0x0B, 0x0C, 0x0D, 0x0E, 0x0F] =
    [0xd447e233, 0xd82eec20, 0x84fce219, 0xb93353de, 0x5ac2588f, 0x48e922f1,
     0x879f5460, 0x1a693a4b, 0x5171b55f, 0x9a206e4d, 0x9966c4a0, 0xb166b0d7,
     0x89cc6827, 0xcbe1b9b7, 0x1bb7f44f, 0x638829b4, 0x4da0ab3a, 0x74e54561,
     0x5eb4dee9, 0xbef10188, 0x728a511f, 0x37a8debc, 0x5735676a, 0xf96b764a,
     0x7aec5407, 0x15e8e206] := by
  decide

set_option maxRecDepth 20000 in
/-- C7: the fixed encode/decode vectors hold under little-endian packing:
both plaintext/ciphertext byte pairs convert to the stated words, both
encodings produce the stated ciphertexts, and both decodings recover the
plaintexts. -/
theorem claim7_fixed_vectors :
    bytes_to_words [0x00, 0x11, 0x22, 0x33, 0x44, 0x55, 0x66, 0x77] 2 =
      [0x33221100, 0x77665544] ∧
    bytes_to_words [0x2D, 0xDC, 0x14, 0x9B, 0xCF, 0x08, 0x8B, 0x9E] 2 =
      [0x9B14DC2D, 0x9E8B08CF] ∧
    encode (key_table [0x00, 0x01, 0x02, 0x03, 0x04, 0x05, 0x06, 0x07, 0x08,
        0x09, 0x0A, 0x0B, 0x0C, 0x0D, 0x0E, 0x0F])
      [0x33221100, 0x77665544] = [0x9B14DC2D, 0x9E8B08CF] ∧
    encode (key_table [0x2B, 0xD6, 0x45, 0x9F, 0x82, 0xC5, 0xB3, 0x00, 0x95,
        0x2C, 0x49, 0x10, 0x48, 0x81, 0xFF, 0x48])
      (bytes_to_words [0xEA, 0x02, 0x47, 0x14, 0xAD, 0x5C, 0x4D, 0x84] 2) =
      bytes_to_words [0x11, 0xE4, 0x3B, 0x86, 0xD2, 0x31, 0xEA, 0x64] 2 ∧
    decode (key_table [0x00, 0x01, 0x02, 0x03, 0x04, 0x05, 0x06, 0x07, 0x08,
        0x09, 0x0A, 0x0B, 0x0C, 0x0D, 0x0E, 0x0F])
      [0x9B14DC2D, 0x9E8B08CF] = [0x33221100, 0x77665544] ∧
    decode (key_table [0x2B, 0xD6, 0x45, 0x9F, 0x82, 0xC5, 0xB3, 0x00, 0x95,
        0x2C, 0x49, 0x10, 0x48, 0x81, 0xFF, 0x48])
      (bytes_to_words [0x11, 0xE4, 0x3B, 0x86, 0xD2, 0x31, 0xEA, 0x64] 2) =
      bytes_to_words [0xEA, 0x02, 0x47, 0x14, 0xAD, 0x5C, 0x4D, 0x84] 2 := by
  decide

/-- C8: the checked models of `key_table`, `encode` and `decode` fail
(`none`, modelling a panic) exactly when a length precondition is violated,
and on correctly sized inputs they run to completion, returning the
total functions' values — no overflow, out-of-bounds read or rotation
failure occurs. -/
theorem claim8_length_preconditions (key kt pt ct : List Nat)
    (hkb : ∀ b ∈ key, b < 256) :
    (key_tableChecked key = none ↔ key.length ≠ 16) ∧
    (key.length = 16 → key_tableChecked key = some (key_table key)) ∧
    (encodeChecked kt pt = none ↔ ¬(kt.length = 26 ∧ pt.length = 2)) ∧
    (kt.length = 26 → pt.length = 2 →
      encodeChecked kt pt = some (encode kt pt)) ∧
    (decodeChecked kt ct = none ↔ ¬(kt.length = 26 ∧ ct.length = 2)) ∧
    (kt.length = 26 → ct.length = 2 →
      decodeChecked kt ct = some (decode kt ct)) := by
  refine ⟨⟨?_, key_tableChecked_none key⟩,
    fun h => key_tableChecked_some key h hkb,
    ⟨?_, encodeChecked_none kt pt⟩,
    fun h1 h2 => encodeChecked_some kt pt h1 h2,
    ⟨?_, decodeChecked_none kt ct⟩,
    fun h1 h2 => decodeChecked_some kt ct h1 h2⟩
  · intro hn hcontra
    rw [key_tableChecked_some key hcontra hkb] at hn
    exact Option.noConfusion hn
  · intro hn hcontra
    rw [encodeChecked_some kt pt hcontra.1 hcontra.2] at hn
    exact Option.noConfusion hn
  · intro hn hcontra
    rw [decodeChecked_some kt ct hcontra.1 hcontra.2] at hn
    exact Option.noConfusion hn

theorem claim8_length_preconditions_witness :
    key_tableChecked (List.replicate 15 0) = none ∧
    key_tableChecked (List.replicate 17 0) = none ∧
    encodeChecked (List.replicate 26 0) [1] = none ∧
    encodeChecked (List.replicate 26 0) [1, 2, 3] = none ∧
    decodeChecked (List.replicate 26 0) [1] = none ∧
    key_tableChecked (List.replicate 16 0) =
      some (key_table (List.replicate 16 0)) ∧
    encodeChecked (List.replicate 26 0) [1, 2] =
      some (encode (List.replicate 26 0) [1, 2]) :=
  have h15 := claim8_length_preconditions (List.replicate 15 0)
    (List.replicate 26 0) [1] [1] (by decide)
  have h17 := claim8_length_preconditions (List.replicate 17 0)
    (List.replicate 26 0) [1, 2, 3] [1] (by decide)
  have h16 := claim8_length_preconditions (List.replicate 16 0)
    (List.replicate 26 0) [1, 2] [1, 2] (by decide)
  ⟨h15.1.mpr (by decide), h17.1.mpr (by decide),
   h15.2.2.1.mpr (by decide), h17.2.2.1.mpr (by decide),
   h15.2.2.2.2.1.mpr (by decide),
   h16.2.1 (by decide),
   h16.2.2.2.1 (by decide) (by decide)⟩

/-- C9: `words_to_bytes` is the exact inverse of `bytes_to_words` under the
little-endian rule: `bytes_to_words(words_to_bytes(W), |W|) = W` for every
`u32` word sequence, and `words_to_bytes(bytes_to_words(B, n)) = B` for
every byte sequence of length `4 * n`. -/
theorem claim9_words_bytes_inverse (ws bs : List Nat) (n : Nat)
    (hw : ∀ w ∈ ws, w < w32) (hbs : bs.length = 4 * n)
    (hb : ∀ b ∈ bs, b < 256) :
    bytes_to_words (words_to_bytes ws) ws.length = ws ∧
    words_to_bytes (bytes_to_words bs n) = bs :=
  ⟨words_bytes_roundtrip ws hw, bytes_words_roundtrip n bs hbs hb⟩

theorem claim9_words_bytes_inverse_witness :
    bytes_to_words (words_to_bytes [0x33221100, 0x77665544]) 2 =
      [0x33221100, 0x77665544] ∧
    words_to_bytes (bytes_to_words [0x00, 0x11, 0x22, 0x33] 1) =
      [0x00, 0x11, 0x22, 0x33] :=
  claim9_words_bytes_inverse [0x33221100, 0x77665544] [0x00, 0x11, 0x22, 0x33]
    1 (by decide) (by decide) (by decide)

/-- C10: for every 26-word key table, `encode` is injective on 2-word
blocks, and a bijection on the block space: `decode` produces a valid block
and is a right inverse of `encode`. -/
theorem claim10_encode_bijective (kt p1 p2 c : List Nat)
    (hkt : kt.length = 26)
    (hp1 : p1.length = 2) (hp1w : ∀ x ∈ p1, x < w32)
    (hp2 : p2.length = 2) (hp2w : ∀ x ∈ p2, x < w32)
    (hc : c.length = 2) (hcw : ∀ x ∈ c, x < w32) :
    (encode kt p1 = encode kt p2 → p1 = p2) ∧
    (decode kt c).length = 2 ∧ (∀ x ∈ decode kt c, x < w32) ∧
    encode kt (decode kt c) = c := by
  rcases p1 with _ | ⟨a0, _ | ⟨a1, _ | ⟨q, arest⟩⟩⟩ <;>
    simp only [List.length_cons, List.length_nil] at hp1 <;> try omega
  rcases p2 with _ | ⟨d0, _ | ⟨d1, _ | ⟨q, drest⟩⟩⟩ <;>
    simp only [List.length_cons, List.length_nil] at hp2 <;> try omega
  rcases c with _ | ⟨c0, _ | ⟨c1, _ | ⟨q, crest⟩⟩⟩ <;>
    simp only [List.length_cons, List.length_nil] at hc <;> try omega
  have ha0 : a0 < w32 := hp1w _ (by simp)
  have ha1 : a1 < w32 := hp1w _ (by simp)
  have hd0 : d0 < w32 := hp2w _ (by simp)
  have hd1 : d1 < w32 := hp2w _ (by simp)
  have hc0 : c0 < w32 := hcw _ (by simp)
  have hc1 : c1 < w32 := hcw _ (by simp)
  refine ⟨?_, rfl, ?_, encode_decode_aux kt c0 c1 hc0 hc1⟩
  · intro heq
    calc [a0, a1] = decode kt (encode kt [a0, a1]) :=
          (decode_encode_aux kt a0 a1 ha0 ha1).symm
      _ = decode kt (encode kt [d0, d1]) := by rw [heq]
      _ = [d0, d1] := decode_encode_aux kt d0 d1 hd0 hd1
  · intro x hx
    simp only [decode, List.mem_cons, List.not_mem_nil, or_false] at hx
    rcases hx with h | h <;> subst h <;> exact wsub_lt _ _

theorem claim10_encode_bijective_witness :
    (encode (List.replicate 26 0) [1, 2] = encode (List.replicate 26 0) [1, 2] →
      ([1, 2] : List Nat) = [1, 2]) ∧
    (decode (List.replicate 26 0) [3, 4]).length = 2 ∧
    (∀ x ∈ decode (List.replicate 26 0) [3, 4], x < w32) ∧
    encode (List.replicate 26 0) (decode (List.replicate 26 0) [3, 4]) = [3, 4] :=
  claim10_encode_bijective (List.replicate 26 0) [1, 2] [1, 2] [3, 4]
    (by decide) (by decide) (by decide) (by decide) (by decide) (by decide)
    (by decide)

end RC5

